import Mathlib

/-!
Shallow embedding of the PaperFuse / PDF-Merger page-collection editor
(`src/unnamed/part_000`, with `src/app.js` a near-duplicate reduced variant).

The application state (`state` object), the ingestion routine `processFiles`,
the reorder handler `handlePageDrop`, selection operations, the filename
validator `validateFilenameInput`, the size estimator `estimateFileSize`, and
the two assembly routines `mergeAndExport` / `splitSelected` are translated
here as pure functions.  External pdf-lib / PDF.js collaborators are modelled
by an explicit environment (`PdfEnv`): a buffer identity resolves to a source
document (list of pages plus a byte length), loading a buffer may fail
(corrupt bytes), and serialization may fail.  Machine floats of the size
estimator are embedded as rationals.
-/

namespace PdfMerger

/-- One page stored inside a source PDF document: its own stored rotation and
an abstract content identifier. -/
structure SourcePage where
  baseRotation : Nat
  content : Nat
deriving DecidableEq, Repr

/-- A source PDF buffer as the document-model library sees it: a byte length
and the sequence of pages it contains. -/
structure Buffer where
  byteLength : Nat
  pages : List SourcePage
deriving DecidableEq, Repr

/-- Translation of the page objects pushed by `processFiles` (part_000 lines
178-186): `pdfBytes` is the shared source-buffer reference, modelled as a
buffer identity. -/
structure PageRef where
  id : Nat
  sourceFile : String
  pageIndex : Nat
  pdfBytes : Nat
  thumbnail : Nat
  rotation : Nat
deriving DecidableEq, Repr

/-- Translation of the global `state` object (part_000 lines 19-26).
`selectedIds` is a JS `Set`; it is modelled as a list read up to membership. -/
structure AppState where
  pages : List PageRef
  selectedIds : List Nat
  isProcessing : Bool
  currentFilename : String
  filenameTemplate : String
deriving DecidableEq, Repr

/-- A page copied into an output document by `PDFDocument.copyPages`,
optionally re-rotated by `setRotation` (an absolute set). -/
structure CopiedPage where
  content : Nat
  rotation : Nat
deriving DecidableEq, Repr

/-- Options passed to `PDFDocument.save` in both assembly routines. -/
structure SaveOptions where
  useObjectStreams : Bool
  addDefaultPage : Bool
deriving DecidableEq, Repr

/-- A serialized output document: its pages and the save options it was
serialized with. -/
structure OutputDoc where
  pages : List CopiedPage
  opts : SaveOptions
deriving DecidableEq, Repr

/-- Environment standing for the pdf-lib collaborator: buffer contents by
identity, which buffers fail to load (decode errors), and which page lists
fail to serialize. -/
structure PdfEnv where
  buffers : Nat → Buffer
  loadFails : Nat → Bool
  saveFails : List CopiedPage → Bool

/-- Translation of one merge/split loop body (part_000 lines 727-736 and
476-486): load the page's source buffer, copy the page at `pageIndex`, and
apply `rotation` as an absolute `setRotation` when it is positive.  `none`
models a thrown decode / out-of-range error. -/
def copyOne (env : PdfEnv) (p : PageRef) : Option CopiedPage :=
  if env.loadFails p.pdfBytes then none
  else
    match (env.buffers p.pdfBytes).pages.get? p.pageIndex with
    | none => none
    | some sp =>
        let cp : CopiedPage := ⟨sp.content, sp.baseRotation⟩
        some (if p.rotation > 0 then { cp with rotation := p.rotation } else cp)

/-- Sequential copying of a list of planned pages, aborting at the first
failure, exactly as the `for` loop of `mergeAndExport` does inside `try`. -/
def copyAll (env : PdfEnv) : List PageRef → Option (List CopiedPage)
  | [] => some []
  | p :: rest =>
      match copyOne env p, copyAll env rest with
      | some cp, some cps => some (cp :: cps)
      | _, _ => none

/-- Translation of the planned subset computed by `mergeAndExport`
(part_000 lines 716-718): the selection-filtered collection when the
selection is non-empty, otherwise the whole collection. -/
def pagesToMerge (st : AppState) : List PageRef :=
  if st.selectedIds.isEmpty then st.pages
  else st.pages.filter (fun p => st.selectedIds.contains p.id)

/-- Result of a merge run: the emitted output documents (filename paired with
document) and whether the run ended in the success toast. -/
structure MergeOutcome where
  outputs : List (String × OutputDoc)
  success : Bool
deriving DecidableEq, Repr

/-- Translation of `mergeAndExport` (part_000 lines 705-760): refuse on an
empty collection, copy every planned page in order into one fresh document,
serialize it with `useObjectStreams: true, addDefaultPage: false`, and emit
exactly one file named from `currentFilename`; any thrown error is caught
and nothing is emitted. -/
def mergeAndExport (env : PdfEnv) (st : AppState) : MergeOutcome :=
  if st.pages.isEmpty then ⟨[], false⟩
  else
    match copyAll env (pagesToMerge st) with
    | none => ⟨[], false⟩
    | some cps =>
        if env.saveFails cps then ⟨[], false⟩
        else ⟨[(st.currentFilename ++ ".pdf", ⟨cps, ⟨true, false⟩⟩)], true⟩

/-- One iteration of the `splitSelected` loop (part_000 lines 468-498): copy
the single page, build a fresh one-page document, serialize it with the same
options as merge, and emit it as `page_<i+1>.pdf`; `none` models a thrown
error anywhere in the iteration (emission is the last step, after a
successful save). -/
def splitStep (env : PdfEnv) (p : PageRef) (i : Nat) : Option (String × OutputDoc) :=
  match copyOne env p with
  | none => none
  | some cp =>
      if env.saveFails [cp] then none
      else some ("page_" ++ toString (i + 1) ++ ".pdf", ⟨[cp], ⟨true, false⟩⟩)

/-- The `splitSelected` loop: one output per selected page, in order, stopping
at the first thrown error (the `catch` swallows the rest of the loop). -/
def splitGo (env : PdfEnv) : List PageRef → Nat → List (String × OutputDoc) × Bool
  | [], _ => ([], true)
  | p :: rest, i =>
      match splitStep env p i with
      | none => ([], false)
      | some out =>
          let r := splitGo env rest (i + 1)
          (out :: r.1, r.2)

/-- Translation of `splitSelected` (part_000 lines 456-510): an empty
selection is refused up front; otherwise the selected pages are taken in
collection order and each becomes one single-page output document. -/
def splitSelected (env : PdfEnv) (st : AppState) : List (String × OutputDoc) × Bool :=
  if st.selectedIds.isEmpty then ([], false)
  else splitGo env (st.pages.filter (fun p => st.selectedIds.contains p.id)) 0

/-- Translation of `Array.prototype.findIndex` over the page list: index of
the first page satisfying the predicate, `none` standing for JS `-1`. -/
def findIndex (pred : PageRef → Bool) : List PageRef → Option Nat
  | [] => none
  | p :: rest => if pred p then some 0 else (findIndex pred rest).map (· + 1)

/-- Translation of `splice(i, 1)`: remove the element at index `i` (no-op past
the end, as in JS). -/
def removeAt {α : Type} : Nat → List α → List α
  | _, [] => []
  | 0, _ :: rest => rest
  | n + 1, x :: rest => x :: removeAt n rest

/-- Translation of `splice(i, 0, x)`: insert `x` so that it ends up at index
`i` (appended at the end when `i` exceeds the length, as in JS). -/
def insertAt {α : Type} (x : α) : Nat → List α → List α
  | _, [] => [x]
  | 0, l => x :: l
  | n + 1, y :: rest => y :: insertAt x n rest

/-- Translation of `handlePageDrop` (part_000 lines 420-441): dropping onto
the dragged page itself is a no-op; both ids are resolved to current indices
and the gesture is a no-op if either fails to resolve; otherwise the dragged
page is spliced out and re-inserted at the target's pre-removal index. -/
def handlePageDrop (pages : List PageRef) (draggedId targetId : Nat) : List PageRef :=
  if draggedId = targetId then pages
  else
    match findIndex (fun p => p.id == draggedId) pages,
          findIndex (fun p => p.id == targetId) pages with
    | some di, some ti =>
        match pages.get? di with
        | some draggedPage => insertAt draggedPage ti (removeAt di pages)
        | none => pages
    | _, _ => pages

/-- JS `Set.add` on the membership-list model of `selectedIds`. -/
def setAdd (a : Nat) (s : List Nat) : List Nat :=
  if a ∈ s then s else a :: s

/-- JS `Set.delete` on the membership-list model of `selectedIds`. -/
def setRemove (a : Nat) (s : List Nat) : List Nat :=
  s.filter (fun b => b ≠ a)

/-- Translation of `togglePageSelection` (part_000 lines 354-362). -/
def togglePageSelection (st : AppState) (id : Nat) : AppState :=
  if id ∈ st.selectedIds then { st with selectedIds := setRemove id st.selectedIds }
  else { st with selectedIds := setAdd id st.selectedIds }

/-- Translation of `selectAll` (part_000 lines 371-375): add every current
page id to the selection set. -/
def selectAll (st : AppState) : AppState :=
  { st with selectedIds := st.pages.foldl (fun s p => setAdd p.id s) st.selectedIds }

/-- Translation of `clearAll` (part_000 lines 377-383). -/
def clearAll (st : AppState) : AppState :=
  { st with pages := [], selectedIds := [] }

/-- Translation of `deleteSelected` (part_000 lines 444-454): early return on
an empty selection, otherwise drop every selected page from the collection
and clear the whole selection set in the same step. -/
def deleteSelected (st : AppState) : AppState :=
  if st.selectedIds.isEmpty then st
  else
    { st with
      pages := st.pages.filter (fun p => !(st.selectedIds.contains p.id)),
      selectedIds := [] }

/-- One uploaded file as `processFiles` sees it: its display name and the
result of decoding it with the document-model library — `none` for a decode
failure (corrupt bytes), `some entries` for the page entries it contributes
(thumbnail generation is modelled as pure and always succeeding). -/
structure UploadFile where
  name : String
  decode : Option (List PageRef)
deriving DecidableEq, Repr

/-- The first pass of `processFiles` (part_000 lines 148-153): load every
file only to count pages; the first decode failure throws out of the loop. -/
def countPass : List UploadFile → Option Nat
  | [] => some 0
  | f :: rest =>
      match f.decode with
      | none => none
      | some ps => (countPass rest).map (ps.length + ·)

/-- Translation of `processFiles` (part_000 lines 138-205): refuse when the
guard is set; the first pass counts pages across all files and the first
decode failure throws before any page has been appended (the `catch` keeps
the collection as it was); when every file decodes, the second pass decodes
each file again (deterministically, with the same result) and appends all
its page entries in order.  The `finally` clears the guard either way. -/
def processFiles (st : AppState) (files : List UploadFile) : AppState :=
  if st.isProcessing then st
  else
    match countPass files with
    | none => st
    | some _ => { st with pages := st.pages ++ files.flatMap (fun f => f.decode.getD []) }

/-- Synchronous prefix of `processFiles` (part_000 lines 138-141): it begins
work only when the `isProcessing` guard is clear. -/
def processFilesBegins (st : AppState) : Bool :=
  !st.isProcessing

/-- Synchronous prefix of `splitSelected` (part_000 lines 456-463): the only
early return is the empty-selection check; the guard is set without being
checked, so the run begins whenever the selection is non-empty. -/
def splitSelectedBegins (st : AppState) : Bool :=
  !st.selectedIds.isEmpty

/-- Synchronous prefix of `mergeAndExport` (part_000 lines 705-712): the only
early return is the empty-collection check; the guard is set without being
checked, so the run begins whenever the collection is non-empty. -/
def mergeAndExportBegins (st : AppState) : Bool :=
  !st.pages.isEmpty

/-- The character class of the `invalidChars` regex in
`validateFilenameInput` (part_000 line 667). -/
def invalidChars : List Char := ['\\', '/', ':', '*', '?', '"', '<', '>', '|']

/-- The three error messages of `validateFilenameInput`. -/
def emptyError : String := "Filename cannot be empty"

/-- Error surfaced when the trimmed filename exceeds 100 characters. -/
def tooLongError : String := "Filename too long (max 100 characters)"

/-- Error surfaced when the trimmed filename contains a forbidden character. -/
def invalidCharsError : String := "Invalid characters: \\ / : * ? \" < > |"

/-- Translation of `String.prototype.trim`: drop leading and trailing
whitespace characters (whitespace per `Char.isWhitespace`). -/
def jsTrim (s : String) : String :=
  String.mk (((s.data.dropWhile Char.isWhitespace).reverse.dropWhile
    Char.isWhitespace).reverse)

/-- Translation of the error computation of `validateFilenameInput` (part_000
lines 662-677): trim, then check empty, then length > 100, then the invalid
character class; the first failing rule sets the single error string, and the
empty string means valid. -/
def validateError (s : String) : String :=
  let v := jsTrim s
  if v.length = 0 then emptyError
  else if v.length > 100 then tooLongError
  else if v.toList.any (fun c => invalidChars.contains c) then invalidCharsError
  else ""

/-- Translation of `confirmExport.disabled = error !== ''` (part_000 line
683). -/
def confirmExportDisabled (s : String) : Bool :=
  validateError s != ""

/-- Count of pages in a list that reference a given buffer, translating
`pages.filter(p => p.pdfBytes === bytes).length`. -/
def countBuf (l : List PageRef) (b : Nat) : Nat :=
  (l.filter (fun p => p.pdfBytes == b)).length

/-- The accumulation loop of `estimateFileSize` (part_000 lines 580-590):
walk the planned pages, and for each buffer not yet processed add
`byteLength * pagesFromSource / totalPagesInSource`, where `pagesFromSource`
counts planned pages on that buffer and `totalPagesInSource` counts pages of
the whole collection (`state.pages`) on that buffer.  JS floats are embedded
as rationals.  (Lines 572-577 of the source compute a local `totalBytes`
that is never read; that dead code is omitted.) -/
def estimateLoop (env : PdfEnv) (planned collection : List PageRef) :
    List PageRef → List Nat → ℚ
  | [], _ => 0
  | p :: rest, processed =>
      if p.pdfBytes ∈ processed then estimateLoop env planned collection rest processed
      else
        ((env.buffers p.pdfBytes).byteLength : ℚ) * (countBuf planned p.pdfBytes : ℚ)
            / (countBuf collection p.pdfBytes : ℚ)
          + estimateLoop env planned collection rest (p.pdfBytes :: processed)

/-- Translation of the value of `estimatedBytes` computed by
`estimateFileSize` (part_000 lines 558-593) just before formatting: the
per-buffer proportional sum scaled by the 0.85 compression factor. -/
def estimateFileSize (env : PdfEnv) (collection planned : List PageRef) : ℚ :=
  (85 / 100) * estimateLoop env planned collection planned []

/-- Modelled from the spec's words (§4.4), for comparison with
`estimateFileSize`: for each distinct buffer referenced by the planned pages,
`byteLength * pagesUsedFromThisBuffer / totalPagesInThisBuffer` where the
denominator is the buffer's own page count, summed and scaled by 0.85. -/
def estimateBytesSpec (env : PdfEnv) (planned : List PageRef) : ℚ :=
  (85 / 100) *
    (((planned.map (fun p => p.pdfBytes)).dedup).map
      (fun b =>
        ((env.buffers b).byteLength : ℚ) * (countBuf planned b : ℚ)
          / ((env.buffers b).pages.length : ℚ))).sum

/-- Modelled from the claim's words (C2), for comparison with `processFiles`:
the summed page counts of the successfully decoded documents that precede the
first decode failure in the batch. -/
def decodedPagesBeforeFailure : List UploadFile → Nat
  | [] => 0
  | f :: rest =>
      match f.decode with
      | none => 0
      | some ps => ps.length + decodedPagesBeforeFailure rest

/-! ### Helper lemmas about the spliced-list primitives -/

theorem findIndex_eq_none_iff (pred : PageRef → Bool) (l : List PageRef) :
    findIndex pred l = none ↔ ∀ p ∈ l, pred p = false := by
  induction l with
  | nil => simp [findIndex]
  | cons p rest ih =>
      by_cases h : pred p
      · simp [findIndex, h]
      · simp only [findIndex, h, Bool.false_eq_true, if_false,
          Option.map_eq_none', List.mem_cons]
        constructor
        · intro hn q hq
          rcases hq with rfl | hq
          · simpa using h
          · exact (ih.mp hn) q hq
        · intro hall
          exact ih.mpr fun q hq => hall q (Or.inr hq)

theorem findIndex_eq_some (pred : PageRef → Bool) (l : List PageRef) (i : Nat)
    (h : findIndex pred l = some i) :
    ∃ p, l.get? i = some p ∧ pred p = true := by
  induction l generalizing i with
  | nil => simp [findIndex] at h
  | cons p rest ih =>
      by_cases hp : pred p
      · simp only [findIndex, hp, if_true, Option.some.injEq] at h
        subst h
        exact ⟨p, rfl, hp⟩
      · simp only [findIndex, hp, Bool.false_eq_true, if_false,
          Option.map_eq_some'] at h
        obtain ⟨j, hj, rfl⟩ := h
        obtain ⟨q, hq, hpq⟩ := ih j hj
        exact ⟨q, by simpa using hq, hpq⟩

theorem removeAt_length {α : Type} (i : Nat) (l : List α) (h : i < l.length) :
    (removeAt i l).length = l.length - 1 := by
  induction l generalizing i with
  | nil => simp at h
  | cons x rest ih =>
      cases i with
      | zero => simp [removeAt]
      | succ n =>
          have hn : n < rest.length := by simpa using h
          simp [removeAt, ih n hn]
          omega

theorem removeAt_perm {α : Type} (i : Nat) (l : List α) (a : α)
    (h : l.get? i = some a) : (a :: removeAt i l).Perm l := by
  induction l generalizing i with
  | nil => simp at h
  | cons x rest ih =>
      cases i with
      | zero =>
          simp only [List.get?] at h
          cases h
          simp [removeAt]
      | succ n =>
          simp only [List.get?] at h
          exact (List.Perm.swap x a (removeAt n rest)).trans ((ih n h).cons x)

theorem insertAt_perm {α : Type} (x : α) (n : Nat) (l : List α) :
    (insertAt x n l).Perm (x :: l) := by
  induction l generalizing n with
  | nil => cases n <;> simp [insertAt]
  | cons y rest ih =>
      cases n with
      | zero => simp [insertAt]
      | succ m =>
          exact ((ih m).cons y).trans (List.Perm.swap x y rest)

theorem insertAt_get?_self {α : Type} (x : α) (n : Nat) (l : List α)
    (h : n ≤ l.length) : (insertAt x n l).get? n = some x := by
  induction l generalizing n with
  | nil =>
      have : n = 0 := by simpa using h
      subst this
      rfl
  | cons y rest ih =>
      cases n with
      | zero => rfl
      | succ m => exact ih m (by simpa using h)

theorem insertAt_get?_lt {α : Type} (x : α) (n k : Nat) (l : List α)
    (hk : k < n) (h : n ≤ l.length) : (insertAt x n l).get? k = l.get? k := by
  induction l generalizing n k with
  | nil =>
      have : n = 0 := by simpa using h
      omega
  | cons y rest ih =>
      cases n with
      | zero => omega
      | succ m =>
          cases k with
          | zero => rfl
          | succ j => exact ih m j (by omega) (by simpa using h)

theorem insertAt_get?_succ {α : Type} (x : α) (n k : Nat) (l : List α)
    (hk : n ≤ k) (h : n ≤ l.length) :
    (insertAt x n l).get? (k + 1) = l.get? k := by
  induction l generalizing n k with
  | nil =>
      have : n = 0 := by simpa using h
      subst this
      cases k <;> rfl
  | cons y rest ih =>
      cases n with
      | zero => rfl
      | succ m =>
          cases k with
          | zero => omega
          | succ j => exact ih m j (by omega) (by simpa using h)

theorem removeAt_get?_lt {α : Type} (i k : Nat) (l : List α) (hk : k < i) :
    (removeAt i l).get? k = l.get? k := by
  induction l generalizing i k with
  | nil => simp [removeAt]
  | cons x rest ih =>
      cases i with
      | zero => omega
      | succ n =>
          cases k with
          | zero => rfl
          | succ j => exact ih n j (by omega)

theorem removeAt_get?_ge {α : Type} (i k : Nat) (l : List α) (hk : i ≤ k) :
    (removeAt i l).get? k = l.get? (k + 1) := by
  induction l generalizing i k with
  | nil => simp [removeAt]
  | cons x rest ih =>
      cases i with
      | zero => rfl
      | succ n =>
          cases k with
          | zero => omega
          | succ j => exact ih n j (by omega)

theorem get?_lt_length {α : Type} {l : List α} {i : Nat} {a : α}
    (h : l.get? i = some a) : i < l.length := by
  by_contra hc
  rw [List.get?_eq_none.mpr (by omega)] at h
  exact Option.noConfusion h

theorem handlePageDrop_perm (pages : List PageRef) (d t : Nat) :
    (handlePageDrop pages d t).Perm pages := by
  unfold handlePageDrop
  split
  · exact List.Perm.refl _
  · split
    · split
      · rename_i dp hdp
        exact (insertAt_perm _ _ _).trans (removeAt_perm _ pages dp hdp)
      · exact List.Perm.refl _
    · exact List.Perm.refl _

/-- Sample collection fixture: three pages of one source buffer. -/
def pgA : PageRef := ⟨1, "a.pdf", 0, 0, 10, 0⟩

/-- Second fixture page. -/
def pgB : PageRef := ⟨2, "a.pdf", 1, 0, 11, 90⟩

/-- Third fixture page. -/
def pgC : PageRef := ⟨3, "a.pdf", 2, 0, 12, 0⟩

/-- Fixture collection in order. -/
def exL : List PageRef := [pgA, pgB, pgC]

/-- C5: every drop gesture is a permutation of the collection — the multiset
of pages (hence of ids) and the length are unchanged — and dropping a page
onto itself, or a gesture whose dragged or target id resolves to no current
page, leaves the sequence exactly as it was. -/
theorem c5_reposition_is_permutation (pages : List PageRef) (d t : Nat) :
    (handlePageDrop pages d t).Perm pages ∧
    (handlePageDrop pages d t).length = pages.length ∧
    (d = t → handlePageDrop pages d t = pages) ∧
    ((∀ p ∈ pages, p.id ≠ d) → handlePageDrop pages d t = pages) ∧
    ((∀ p ∈ pages, p.id ≠ t) → handlePageDrop pages d t = pages) := by
  refine ⟨handlePageDrop_perm pages d t, (handlePageDrop_perm pages d t).length_eq,
    ?_, ?_, ?_⟩
  · intro h
    simp [handlePageDrop, h]
  · intro h
    have hn : findIndex (fun p => p.id == d) pages = none :=
      (findIndex_eq_none_iff _ _).mpr fun p hp => by simpa using h p hp
    by_cases hdt : d = t
    · simp [handlePageDrop, hdt]
    · rcases hfi : findIndex (fun p => p.id == t) pages with _ | ti <;>
        simp [handlePageDrop, hdt, hn, hfi]
  · intro h
    have hn : findIndex (fun p => p.id == t) pages = none :=
      (findIndex_eq_none_iff _ _).mpr fun p hp => by simpa using h p hp
    by_cases hdt : d = t
    · simp [handlePageDrop, hdt]
    · rcases hfi : findIndex (fun p => p.id == d) pages with _ | di <;>
        simp [handlePageDrop, hdt, hn, hfi]

/-- Witness for C5 at a concrete no-op gesture. -/
theorem c5_witness : handlePageDrop exL 9 9 = exL :=
  (c5_reposition_is_permutation exL 9 9).2.2.1 rfl

/-- C6 as stated is false: dragging page 1 onto page 3 in the three-page
fixture yields order [2, 3, 1], in which the dragged page 1 follows the
target 3 instead of immediately preceding it. -/
theorem c6_counterexample :
    ((handlePageDrop exL 1 3).map (fun p => p.id) = [2, 3, 1]) ∧
    (∀ k, ((handlePageDrop exL 1 3).map (fun p => p.id)).get? k = some 1 →
        ((handlePageDrop exL 1 3).map (fun p => p.id)).get? (k + 1) ≠ some 3) := by
  have hl : (handlePageDrop exL 1 3).map (fun p => p.id) = [2, 3, 1] := by decide
  refine ⟨hl, ?_⟩
  intro k h
  rw [hl] at h ⊢
  match k with
  | 0 => exact absurd h (by decide)
  | 1 => exact absurd h (by decide)
  | 2 => decide
  | n + 3 =>
      rw [List.get?_eq_none.mpr (by simp)] at h
      exact Option.noConfusion h

/-- C6 amended: a reposition of a dragged page onto a distinct, present
target inserts the dragged page at the target's original index — so it ends
up immediately before the target when it started after it, and immediately
after the target when it started before it — and the whole operation is a
permutation of the unchanged PageRef values (nothing is duplicated, dropped
or mutated). -/
theorem c6_reposition_lands_at_target_index (pages : List PageRef)
    (d t di ti : Nat) (hdt : d ≠ t)
    (hd : findIndex (fun p => p.id == d) pages = some di)
    (ht : findIndex (fun p => p.id == t) pages = some ti) :
    (handlePageDrop pages d t).Perm pages ∧
    (handlePageDrop pages d t).get? ti = pages.get? di ∧
    (ti < di → (handlePageDrop pages d t).get? (ti + 1) = pages.get? ti) ∧
    (di < ti → (handlePageDrop pages d t).get? (ti - 1) = pages.get? ti) := by
  obtain ⟨dp, hdp, hdpd⟩ := findIndex_eq_some _ _ _ hd
  have hdi : di < pages.length := get?_lt_length hdp
  have hti : ti < pages.length := by
    obtain ⟨tp, htp, _⟩ := findIndex_eq_some _ _ _ ht
    exact get?_lt_length htp
  have hdp' : pages[di]? = some dp := by
    rw [← List.get?_eq_getElem?]
    exact hdp
  have heq : handlePageDrop pages d t = insertAt dp ti (removeAt di pages) := by
    simp [handlePageDrop, hdt, hd, ht, hdp']
  have hrl : (removeAt di pages).length = pages.length - 1 :=
    removeAt_length di pages hdi
  have hble : ti ≤ (removeAt di pages).length := by omega
  refine ⟨handlePageDrop_perm pages d t, ?_, ?_, ?_⟩
  · rw [heq, insertAt_get?_self _ _ _ hble, hdp]
  · intro hlt
    rw [heq, insertAt_get?_succ _ ti ti _ le_rfl hble, removeAt_get?_lt di ti pages hlt]
  · intro hlt
    have hts : ti - 1 + 1 = ti := by omega
    rw [heq, insertAt_get?_lt _ ti (ti - 1) _ (by omega) hble,
      removeAt_get?_ge di (ti - 1) pages (by omega), hts]

/-- Witness for the amended C6: dragging page 3 onto page 1 lands the dragged
page at the target's original index 0. -/
theorem c6_witness : (handlePageDrop exL 3 1).get? 0 = exL.get? 2 :=
  (c6_reposition_lands_at_target_index exL 3 1 2 0 (by decide) (by decide)
    (by decide)).2.1

/-! ### Selection-set invariant (C7) -/

/-- The user-driven operations that mutate the Collection or SelectionSet. -/
inductive Event where
  | ingest (files : List UploadFile)
  | toggle (id : Nat)
  | doSelectAll
  | doDeleteSelected
  | doClearAll
  | drop (draggedId targetId : Nat)
deriving DecidableEq, Repr

/-- Dispatch of one user operation to its translated handler. -/
def step (st : AppState) : Event → AppState
  | .ingest files => processFiles st files
  | .toggle id => togglePageSelection st id
  | .doSelectAll => selectAll st
  | .doDeleteSelected => deleteSelected st
  | .doClearAll => clearAll st
  | .drop d t => { st with pages := handlePageDrop st.pages d t }

theorem mem_setAdd (a i : Nat) (s : List Nat) :
    i ∈ setAdd a s ↔ i = a ∨ i ∈ s := by
  unfold setAdd
  split
  · rename_i h
    constructor
    · exact Or.inr
    · rintro (rfl | hi)
      · exact h
      · exact hi
  · simp

theorem mem_foldl_setAdd (ps : List PageRef) (s : List Nat) (i : Nat) :
    i ∈ ps.foldl (fun acc p => setAdd p.id acc) s ↔
      i ∈ s ∨ ∃ p ∈ ps, p.id = i := by
  induction ps generalizing s with
  | nil => simp
  | cons p rest ih =>
      simp only [List.foldl_cons, ih, mem_setAdd, List.mem_cons]
      constructor
      · rintro ((rfl | hi) | ⟨q, hq, rfl⟩)
        · exact Or.inr ⟨p, Or.inl rfl, rfl⟩
        · exact Or.inl hi
        · exact Or.inr ⟨q, Or.inr hq, rfl⟩
      · rintro (hi | ⟨q, rfl | hq, rfl⟩)
        · exact Or.inl (Or.inr hi)
        · exact Or.inl (Or.inl rfl)
        · exact Or.inr ⟨q, hq, rfl⟩

theorem contains_true_iff_mem (l : List Nat) (a : Nat) :
    l.contains a = true ↔ a ∈ l := by
  simp [List.contains]

theorem togglePageSelection_pages (st : AppState) (id : Nat) :
    (togglePageSelection st id).pages = st.pages := by
  unfold togglePageSelection
  split <;> rfl

theorem processFiles_selectedIds (st : AppState) (files : List UploadFile) :
    (processFiles st files).selectedIds = st.selectedIds := by
  unfold processFiles
  split
  · rfl
  · split <;> rfl

theorem processFiles_pages_mono (st : AppState) (files : List UploadFile)
    (p : PageRef) (hp : p ∈ st.pages) : p ∈ (processFiles st files).pages := by
  unfold processFiles
  split
  · exact hp
  · split
    · exact hp
    · exact List.mem_append_left _ hp

/-- C7: every Collection/SelectionSet operation preserves the invariant that
each selected id references a page still present in the Collection (toggle
being invoked, as the UI does, with the id of a current page), and the delete
operation removes the selected pages from the Collection and empties the
SelectionSet in the same step. -/
theorem c7_selection_invariant (st : AppState) (e : Event)
    (hinv : ∀ i ∈ st.selectedIds, ∃ p ∈ st.pages, p.id = i)
    (htoggle : ∀ id, e = .toggle id → ∃ p ∈ st.pages, p.id = id) :
    (∀ i ∈ (step st e).selectedIds, ∃ p ∈ (step st e).pages, p.id = i) ∧
    (e = .doDeleteSelected →
      (step st e).selectedIds = [] ∧
      ∀ p ∈ (step st e).pages, p.id ∉ st.selectedIds) := by
  cases e with
  | ingest files =>
      refine ⟨?_, by simp⟩
      intro i hi
      simp only [step] at hi ⊢
      rw [processFiles_selectedIds] at hi
      obtain ⟨p, hp, hpi⟩ := hinv i hi
      exact ⟨p, processFiles_pages_mono st files p hp, hpi⟩
  | toggle id =>
      refine ⟨?_, by simp⟩
      intro i hi
      simp only [step] at hi ⊢
      rw [togglePageSelection_pages]
      unfold togglePageSelection at hi
      split at hi <;> simp only at hi
      · exact hinv i (List.mem_of_mem_filter hi)
      · rcases (mem_setAdd id i st.selectedIds).mp hi with rfl | hi'
        · exact htoggle i rfl
        · exact hinv i hi'
  | doSelectAll =>
      refine ⟨?_, by simp⟩
      intro i hi
      simp only [step] at hi
      unfold selectAll at hi
      simp only at hi
      rcases (mem_foldl_setAdd st.pages st.selectedIds i).mp hi with hi' | ⟨p, hp, hpi⟩
      · exact hinv i hi'
      · exact ⟨p, hp, hpi⟩
  | doDeleteSelected =>
      simp only [step]
      unfold deleteSelected
      split
      · rename_i hemp
        have hnil : st.selectedIds = [] := List.isEmpty_iff.mp hemp
        refine ⟨fun i hi => hinv i hi, fun _ => ⟨hnil, ?_⟩⟩
        intro p _ hp
        rw [hnil] at hp
        exact List.not_mem_nil _ hp
      · refine ⟨by simp, fun _ => ⟨rfl, ?_⟩⟩
        intro p hp
        have hc := List.of_mem_filter hp
        simp only [Bool.not_eq_true'] at hc
        intro hmem
        have hcc := (contains_true_iff_mem st.selectedIds p.id).mpr hmem
        rw [hc] at hcc
        exact Bool.noConfusion hcc
  | doClearAll =>
      exact ⟨by simp [step, clearAll], by simp⟩
  | drop d t =>
      refine ⟨?_, by simp⟩
      intro i hi
      simp only [step] at hi ⊢
      obtain ⟨p, hp, hpi⟩ := hinv i hi
      exact ⟨p, ((handlePageDrop_perm st.pages d t).mem_iff).mpr hp, hpi⟩

/-- Fixture state for the C7 witness. -/
def ex7St : AppState := ⟨exL, [2], false, "merged", "custom"⟩

/-- Witness for C7 at a concrete delete of the selected page. -/
theorem c7_witness : (step ex7St .doDeleteSelected).selectedIds = [] :=
  (((c7_selection_invariant ex7St .doDeleteSelected (by decide)
    (fun _ h => Event.noConfusion h)).2) rfl).1

/-! ### Filename validation (C8) -/

/-- C8: validation fails exactly when the trimmed input is empty, longer than
100 characters, or contains one of the characters \ / : * ? " < > |, the rules
checked in that order with the first failing rule fixing the single surfaced
message; a string passing all three rules yields the empty error, and export
confirmation is disabled exactly when an error is surfaced. -/
theorem c8_filename_validation (s : String) :
    (validateError s = emptyError ↔ (jsTrim s).length = 0) ∧
    (validateError s = tooLongError ↔
      (jsTrim s).length ≠ 0 ∧ 100 < (jsTrim s).length) ∧
    (validateError s = invalidCharsError ↔
      (jsTrim s).length ≠ 0 ∧ (jsTrim s).length ≤ 100 ∧
      (jsTrim s).toList.any (fun c => invalidChars.contains c) = true) ∧
    (validateError s = "" ↔
      (jsTrim s).length ≠ 0 ∧ (jsTrim s).length ≤ 100 ∧
      (jsTrim s).toList.any (fun c => invalidChars.contains c) = false) ∧
    (confirmExportDisabled s = true ↔ validateError s ≠ "") := by
  have d1 : emptyError ≠ tooLongError := by decide
  have d2 : emptyError ≠ invalidCharsError := by decide
  have d3 : emptyError ≠ "" := by decide
  have d4 : tooLongError ≠ invalidCharsError := by decide
  have d5 : tooLongError ≠ "" := by decide
  have d6 : invalidCharsError ≠ "" := by decide
  have d7 := d1.symm
  have d8 := d2.symm
  have d9 := d3.symm
  have d10 := d4.symm
  have d11 := d5.symm
  have d12 := d6.symm
  unfold confirmExportDisabled validateError
  dsimp only
  split_ifs with he hl hc <;>
    refine ⟨?_, ?_, ?_, ?_, ?_⟩ <;>
      simp_all [bne_iff_ne]

/-- Witness for C8 at the spec's concrete example of a valid filename. -/
theorem c8_witness : validateError "report_final" = "" :=
  (c8_filename_validation "report_final").2.2.2.1.mpr (by decide)

/-! ### The isProcessing guard (C3) and ingestion (C2) -/

/-- Fixture state standing for "another long-running operation is in
flight": the guard is set, pages exist and a page is selected. -/
def busySt : AppState := ⟨exL, [1], true, "merged", "custom"⟩

/-- C3 evidence: with the `isProcessing` guard set, the synchronous prefixes
of `splitSelected` and `mergeAndExport` still begin their runs — their only
early returns test the selection and the collection, and they set the guard
without checking it — while `processFiles` does refuse to start. -/
theorem c3_split_and_merge_ignore_guard :
    busySt.isProcessing = true ∧
    splitSelectedBegins busySt = true ∧
    mergeAndExportBegins busySt = true ∧
    processFilesBegins busySt = false := by
  decide

theorem countPass_eq_none_iff (files : List UploadFile) :
    countPass files = none ↔ ∃ f ∈ files, f.decode = none := by
  induction files with
  | nil => simp [countPass]
  | cons f rest ih =>
      unfold countPass
      rcases hf : f.decode with _ | ps
      · simp [hf]
      · simp [hf, Option.map_eq_none', ih]

/-- C2 amended: starting from an idle state, a batch in which every document
decodes grows the Collection by exactly the batch's total page count (all
entries appended in order after the existing pages); a batch containing any
decode failure fails as a whole during the first counting pass, before any
page has been appended, so the Collection is exactly unchanged. -/
theorem c2_ingestion_growth (st : AppState) (files : List UploadFile)
    (hidle : st.isProcessing = false) :
    ((∀ f ∈ files, f.decode ≠ none) →
      (processFiles st files).pages
        = st.pages ++ files.flatMap (fun f => f.decode.getD [])) ∧
    ((∃ f ∈ files, f.decode = none) →
      (processFiles st files).pages = st.pages) := by
  constructor
  · intro hall
    have hcp : countPass files ≠ none := by
      rw [Ne, countPass_eq_none_iff]
      rintro ⟨f, hf, hdec⟩
      exact hall f hf hdec
    unfold processFiles
    rw [if_neg (by simp [hidle])]
    rcases hc : countPass files with _ | n
    · exact absurd hc hcp
    · rfl
  · intro hfail
    have hcp : countPass files = none := (countPass_eq_none_iff files).mpr hfail
    unfold processFiles
    rw [if_neg (by simp [hidle]), hcp]

/-- Fixture upload batch: one healthy two-page document followed by one
corrupt document. -/
def fileA : UploadFile := ⟨"a.pdf", some [pgA, pgB]⟩

/-- The corrupt second document of the fixture batch. -/
def fileB : UploadFile := ⟨"b.pdf", none⟩

/-- Fixture idle state with an empty collection. -/
def idleSt : AppState := ⟨[], [], false, "merged", "custom"⟩

/-- C2 as stated is false: in the batch [fileA (2 pages), fileB (corrupt)]
the document before the failure point decodes successfully, so the claim
predicts growth 2, but the two-pass design throws while counting pages,
before anything is appended, and the Collection grows by 0. -/
theorem c2_counterexample :
    decodedPagesBeforeFailure [fileA, fileB] = 2 ∧
    (processFiles idleSt [fileA, fileB]).pages.length = idleSt.pages.length + 0 ∧
    (processFiles idleSt [fileA, fileB]).pages.length
      ≠ idleSt.pages.length + decodedPagesBeforeFailure [fileA, fileB] := by
  refine ⟨by decide, by decide, by decide⟩

/-- Witness for the amended C2: an all-healthy batch appends every page. -/
theorem c2_witness :
    (processFiles idleSt [fileA]).pages
      = idleSt.pages ++ [fileA].flatMap (fun f => f.decode.getD []) :=
  (c2_ingestion_growth idleSt [fileA] rfl).1 (by decide)

/-! ### Assembly (C1, C4, C10) -/

theorem copyOne_eq_some (env : PdfEnv) (p : PageRef) (cp : CopiedPage)
    (h : copyOne env p = some cp) :
    ∃ sp, (env.buffers p.pdfBytes).pages.get? p.pageIndex = some sp ∧
      cp = ⟨sp.content, if p.rotation > 0 then p.rotation else sp.baseRotation⟩ := by
  unfold copyOne at h
  split at h
  · exact Option.noConfusion h
  · rcases hg : (env.buffers p.pdfBytes).pages.get? p.pageIndex with _ | sp <;>
      rw [hg] at h
    · exact Option.noConfusion h
    · refine ⟨sp, rfl, ?_⟩
      by_cases hr : p.rotation > 0 <;> simp [hr] at h ⊢ <;> exact h.symm

theorem copyAll_get? (env : PdfEnv) (l : List PageRef) (cps : List CopiedPage)
    (h : copyAll env l = some cps) :
    cps.length = l.length ∧
    ∀ i, (l.get? i).bind (copyOne env) = cps.get? i := by
  induction l generalizing cps with
  | nil =>
      simp only [copyAll, Option.some.injEq] at h
      subst h
      exact ⟨rfl, fun i => by cases i <;> rfl⟩
  | cons p rest ih =>
      unfold copyAll at h
      rcases hc : copyOne env p with _ | cp <;> rw [hc] at h
      · exact Option.noConfusion h
      · rcases hr : copyAll env rest with _ | cps' <;> rw [hr] at h
        · exact Option.noConfusion h
        · simp only [Option.some.injEq] at h
          subst h
          obtain ⟨hlen, hget⟩ := ih cps' hr
          refine ⟨by simp [hlen], fun i => ?_⟩
          cases i with
          | zero => simpa using hc
          | succ k => simpa using hget k

/-- C1: over a non-empty Collection, when every planned page copy and the
save succeed, the merge emits exactly one output document whose pages are, in
order, the copies of the planned pages — the selection-filtered Collection in
Collection order when the selection is non-empty, else the whole Collection —
each copy carrying the PageRef's rotation as an absolute rotation when it is
non-zero and the source page's own stored rotation otherwise, serialized with
object-stream compression and no default blank page. -/
theorem c1_merge_emits_single_planned_document (env : PdfEnv) (st : AppState)
    (cps : List CopiedPage) (hne : st.pages ≠ [])
    (hcopy : copyAll env (pagesToMerge st) = some cps)
    (hsave : env.saveFails cps = false) :
    (mergeAndExport env st).outputs
        = [(st.currentFilename ++ ".pdf", ⟨cps, ⟨true, false⟩⟩)] ∧
    (mergeAndExport env st).success = true ∧
    cps.length = (pagesToMerge st).length ∧
    (∀ i p, (pagesToMerge st).get? i = some p →
      ∃ sp, (env.buffers p.pdfBytes).pages.get? p.pageIndex = some sp ∧
        cps.get? i
          = some ⟨sp.content,
              if p.rotation > 0 then p.rotation else sp.baseRotation⟩) := by
  have hout : mergeAndExport env st
      = ⟨[(st.currentFilename ++ ".pdf", ⟨cps, ⟨true, false⟩⟩)], true⟩ := by
    unfold mergeAndExport
    rw [if_neg (by simpa [List.isEmpty_iff] using hne), hcopy]
    simp [hsave]
  obtain ⟨hlen, hget⟩ := copyAll_get? env _ cps hcopy
  refine ⟨by rw [hout], by rw [hout], hlen, ?_⟩
  intro i p hp
  have hbind := hget i
  rw [hp] at hbind
  have hi : i < (pagesToMerge st).length := get?_lt_length hp
  rcases hcg : cps.get? i with _ | cp <;> rw [hcg] at hbind
  · have : cps.length ≤ i := List.get?_eq_none.mp hcg
    omega
  · obtain ⟨sp, hsp, hcp⟩ := copyOne_eq_some env p cp hbind
    exact ⟨sp, hsp, congrArg some hcp⟩

/-- Fixture environment: one three-page source buffer (third source page
already carries a stored rotation of 90), no failures. -/
def envOK : PdfEnv :=
  ⟨fun _ => ⟨100, [⟨0, 7⟩, ⟨0, 8⟩, ⟨90, 9⟩]⟩, fun _ => false, fun _ => false⟩

/-- Fixture state for merging the whole three-page collection. -/
def mergeSt : AppState := ⟨exL, [], false, "merged", "custom"⟩

/-- Witness for C1 at the concrete fixture merge. -/
theorem c1_witness :
    (mergeAndExport envOK mergeSt).outputs
      = [("merged" ++ ".pdf", ⟨[⟨7, 0⟩, ⟨8, 90⟩, ⟨9, 90⟩], ⟨true, false⟩⟩)] :=
  (c1_merge_emits_single_planned_document envOK mergeSt
    [⟨7, 0⟩, ⟨8, 90⟩, ⟨9, 90⟩] (by decide) (by decide) rfl).1

theorem splitStep_name (env : PdfEnv) (p : PageRef) (i : Nat)
    (out : String × OutputDoc) (h : splitStep env p i = some out) :
    out.1 = "page_" ++ toString (i + 1) ++ ".pdf" := by
  unfold splitStep at h
  split at h
  · exact Option.noConfusion h
  · split at h
    · exact Option.noConfusion h
    · injection h with h
      rw [← h]

theorem splitStep_complete (env : PdfEnv) (p : PageRef) (i : Nat)
    (out : String × OutputDoc) (h : splitStep env p i = some out) :
    out.2.pages.length = 1 ∧ env.saveFails out.2.pages = false ∧
    out.2.opts = ⟨true, false⟩ := by
  unfold splitStep at h
  split at h
  · exact Option.noConfusion h
  · split at h
    · exact Option.noConfusion h
    · rename_i hsv
      injection h with h
      rw [← h]
      exact ⟨rfl, by simpa using hsv, rfl⟩

theorem splitGo_mem (env : PdfEnv) (l : List PageRef) :
    ∀ (i : Nat), ∀ out ∈ (splitGo env l i).1,
      out.2.pages.length = 1 ∧ env.saveFails out.2.pages = false ∧
      out.2.opts = ⟨true, false⟩ := by
  induction l with
  | nil => intro i out hout; simp [splitGo] at hout
  | cons p rest ih =>
      intro i
      unfold splitGo
      rcases hs : splitStep env p i with _ | o
      · intro out hout
        exact absurd hout (List.not_mem_nil out)
      · dsimp only
        intro out hout
        rcases List.mem_cons.mp hout with rfl | hmem
        · exact splitStep_complete env p i out hs
        · exact ih (i + 1) out hmem

theorem splitGo_fail_lt (env : PdfEnv) (l : List PageRef) :
    ∀ (i : Nat), (splitGo env l i).2 = false →
      (splitGo env l i).1.length < l.length := by
  induction l with
  | nil => intro i h; simp [splitGo] at h
  | cons p rest ih =>
      intro i
      unfold splitGo
      rcases hs : splitStep env p i with _ | o
      · intro h
        exact Nat.succ_pos rest.length
      · dsimp only
        intro h
        simpa using Nat.succ_lt_succ (ih (i + 1) h)

theorem mergeAndExport_shape (env : PdfEnv) (st : AppState) :
    mergeAndExport env st = ⟨[], false⟩ ∨ (mergeAndExport env st).success = true := by
  unfold mergeAndExport
  split
  · exact Or.inl rfl
  · split
    · exact Or.inl rfl
    · split
      · exact Or.inl rfl
      · exact Or.inr rfl

/-- C4: a failed merge emits nothing; every document a split run does emit is
a complete, successfully serialized single-page document with the same save
options as merge (emission happens only after its save succeeds); and a split
run that ends in failure has stopped early — outputs were emitted for fewer
than the selected pages, and the attempt is reported as failed, never as a
success with partial output. -/
theorem c4_failure_emits_no_partial_output (env : PdfEnv) (st : AppState) :
    ((mergeAndExport env st).success = false → (mergeAndExport env st).outputs = []) ∧
    (∀ out ∈ (splitSelected env st).1,
      out.2.pages.length = 1 ∧ env.saveFails out.2.pages = false ∧
      out.2.opts = ⟨true, false⟩) ∧
    ((splitSelected env st).2 = false →
      st.selectedIds.isEmpty = true ∨
      (splitSelected env st).1.length
        < (st.pages.filter (fun p => st.selectedIds.contains p.id)).length) := by
  refine ⟨?_, ?_, ?_⟩
  · intro h
    rcases mergeAndExport_shape env st with he | hsuc
    · rw [he]
    · rw [hsuc] at h
      exact absurd h (by simp)
  · intro out hout
    unfold splitSelected at hout
    split at hout
    · simp at hout
    · exact splitGo_mem env _ 0 out hout
  · intro h
    unfold splitSelected at h ⊢
    split at h
    · rename_i hemp
      exact Or.inl hemp
    · rename_i hemp
      rw [if_neg hemp]
      exact Or.inr (splitGo_fail_lt env _ 0 h)


/-- Fixture environment in which every buffer load fails. -/
def envBad : PdfEnv :=
  ⟨fun _ => ⟨100, [⟨0, 7⟩, ⟨0, 8⟩, ⟨90, 9⟩]⟩, fun _ => true, fun _ => false⟩

/-- Witness for C4: the concrete failed merge emits no output at all. -/
theorem c4_witness : (mergeAndExport envBad mergeSt).outputs = [] :=
  (c4_failure_emits_no_partial_output envBad mergeSt).1 (by decide)

theorem splitGo_get_name (env : PdfEnv) (l : List PageRef) :
    ∀ (j i : Nat) (out : String × OutputDoc),
      (splitGo env l j).1.get? i = some out →
      out.1 = "page_" ++ toString (j + i + 1) ++ ".pdf" := by
  induction l with
  | nil => intro j i out h; simp [splitGo] at h
  | cons p rest ih =>
      intro j
      unfold splitGo
      rcases hs : splitStep env p j with _ | o
      · intro i out h
        simp at h
      · dsimp only
        intro i out h
        cases i with
        | zero =>
            simp only [List.get?, Option.some.injEq] at h
            rw [← h]
            exact splitStep_name env p j o hs
        | succ k =>
            simp only [List.get?] at h
            rw [show j + (k + 1) + 1 = (j + 1) + k + 1 from by omega]
            exact ih (j + 1) k out h

/-- C10: the i-th document a split run emits (0-based here, so named with
i + 1) is always named page_(i+1).pdf — the name depends only on the position
within the run, never on the page's source file, its original page number, or
the state's filename template, over which the statement is universally
quantified. -/
theorem c10_split_output_names (env : PdfEnv) (st : AppState) :
    ∀ (i : Nat) (out : String × OutputDoc),
      (splitSelected env st).1.get? i = some out →
      out.1 = "page_" ++ toString (i + 1) ++ ".pdf" := by
  intro i out h
  unfold splitSelected at h
  split at h
  · simp at h
  · have := splitGo_get_name env _ 0 i out h
    rwa [Nat.zero_add] at this

/-- Fixture state selecting the first and third pages for a split. -/
def splitSt : AppState := ⟨exL, [1, 3], false, "merged", "custom"⟩

/-- Witness for C10: the first emitted document of the fixture split run. -/
theorem c10_witness :
    (splitSelected envOK splitSt).1.get? 0
        = some ("page_1.pdf", ⟨[⟨7, 0⟩], ⟨true, false⟩⟩) ∧
    (("page_1.pdf", (⟨[⟨7, 0⟩], ⟨true, false⟩⟩ : OutputDoc)) :
        String × OutputDoc).1 = "page_" ++ toString (0 + 1) ++ ".pdf" :=
  ⟨by decide, c10_split_output_names envOK splitSt 0 _ (by decide)⟩

/-! ### Size estimation (C9) -/

theorem sum_insert_erase (S : Finset Nat) (a : Nat) (f : Nat → ℚ) :
    (insert a S).sum f = f a + (S.erase a).sum f := by
  calc (insert a S).sum f
      = (insert a ((insert a S).erase a)).sum f := by
        rw [Finset.insert_erase (Finset.mem_insert_self a S)]
    _ = f a + ((insert a S).erase a).sum f :=
        Finset.sum_insert (Finset.not_mem_erase a _)
    _ = f a + (S.erase a).sum f := by rw [Finset.erase_insert_eq_erase]

theorem estimateLoop_eq (env : PdfEnv) (planned collection : List PageRef) :
    ∀ (cursor : List PageRef) (processed : List Nat),
      estimateLoop env planned collection cursor processed
        = ((cursor.map (fun p => p.pdfBytes)).toFinset \ processed.toFinset).sum
            (fun b => ((env.buffers b).byteLength : ℚ) * (countBuf planned b : ℚ)
                / (countBuf collection b : ℚ)) := by
  intro cursor
  induction cursor with
  | nil => intro processed; simp [estimateLoop]
  | cons p rest ih =>
      intro processed
      unfold estimateLoop
      by_cases hmem : p.pdfBytes ∈ processed
      · rw [if_pos hmem, ih processed, List.map_cons, List.toFinset_cons,
          Finset.insert_sdiff_of_mem _ (List.mem_toFinset.mpr hmem)]
      · rw [if_neg hmem, ih (p.pdfBytes :: processed), List.map_cons,
          List.toFinset_cons, List.toFinset_cons,
          Finset.insert_sdiff_of_not_mem _ (fun hc => hmem (List.mem_toFinset.mp hc)),
          Finset.sdiff_insert, sum_insert_erase]

/-- C9 amended: the estimated byte size is, for each distinct buffer
referenced by the planned pages, the buffer's byte length times the fraction
of planned pages over the pages currently in the Collection that reference
that buffer (not over the buffer's own total page count), summed and scaled
by the 0.85 compression factor. -/
theorem c9_estimate_formula (env : PdfEnv) (collection planned : List PageRef) :
    estimateFileSize env collection planned
      = (85 / 100) *
        ((planned.map (fun p => p.pdfBytes)).toFinset.sum
          (fun b => ((env.buffers b).byteLength : ℚ) * (countBuf planned b : ℚ)
              / (countBuf collection b : ℚ))) := by
  unfold estimateFileSize
  rw [estimateLoop_eq]
  simp

/-- Fixture environment for C9: buffer 0 is a 1000-byte document containing
two pages, of which only one survives in the Collection. -/
def env9 : PdfEnv := ⟨fun _ => ⟨1000, [⟨0, 7⟩, ⟨0, 8⟩]⟩, fun _ => false, fun _ => false⟩

/-- C9 as stated is false: with one planned page drawn from a 1000-byte
two-page buffer of which only one page remains in the Collection, the code
divides by the Collection count (1) and estimates 850 bytes, while the
claim's formula divides by the buffer's total page count (2) and yields 425. -/
theorem c9_counterexample :
    estimateFileSize env9 [pgA] [pgA] = 850 ∧
    estimateBytesSpec env9 [pgA] = 425 ∧
    (850 : ℚ) ≠ 425 := by
  refine ⟨?_, ?_, by norm_num⟩
  · show (85 / 100 : ℚ) * estimateLoop env9 [pgA] [pgA] [pgA] [] = 850
    norm_num [estimateLoop, countBuf, env9, pgA]
  · show (85 / 100 : ℚ) *
      ((([pgA].map (fun p => p.pdfBytes)).dedup).map
        (fun b => ((env9.buffers b).byteLength : ℚ) * (countBuf [pgA] b : ℚ)
          / ((env9.buffers b).pages.length : ℚ))).sum = 425
    norm_num [countBuf, env9, pgA]

end PdfMerger
